import Mathlib

/-!
Shallow embedding of the Battleship targeting engine, fleet model, board
geometry and attack resolution (`battleship.py`), together with theorems
settling the specification claims about them.

Conventions of the embedding:
* A board coordinate is a pair `(row, column)` of naturals.
* Python's `random.choice(seq)` is modelled by `randomChoice seq k`, where
  `k : ℕ` is the pseudo-random draw; it returns `none` exactly when the
  sequence is empty (Python raises `IndexError` there).
* Python's `random.shuffle` is modelled by `shuffleWith ks l`: repeatedly
  extract the element at a drawn index; every result is a permutation of
  the input, matching the only guarantee `shuffle` provides.
* Mutating methods become state-passing functions; a method that can fail
  returns an `Option`.
-/

namespace Battleship

abbrev Coord : Type := ℕ × ℕ

/-- The list `[(r, c) for r in range(n) for c in range(n)]` in row-major
order, as built by the strategies' fallback comprehensions. -/
def allCoords (n : ℕ) : List Coord :=
  (List.range n).flatMap fun r => (List.range n).map fun c => (r, c)

/-- `random.choice(l)` with pseudo-random draw `k`: `none` iff `l` is empty
(Python raises `IndexError` on an empty sequence). -/
def randomChoice {α : Type} (l : List α) (k : ℕ) : Option α :=
  l[k % l.length]?

/-- Remove and return the element at index `i`, together with the remaining
list. -/
def extractIdx {α : Type} : List α → ℕ → Option (α × List α)
  | [], _ => none
  | a :: l, 0 => some (a, l)
  | a :: l, n + 1 => (extractIdx l n).map fun p => (p.1, a :: p.2)

/-- `random.shuffle` modelled with a list of pseudo-random draws: repeatedly
extract the element at a drawn index.  Always a permutation of the input. -/
def shuffleWith : List ℕ → List Coord → List Coord
  | [], l => l
  | k :: ks, l =>
    match extractIdx l (k % l.length) with
    | none => l
    | some (a, rest) => a :: shuffleWith ks rest

/-- The loop `while queue: coord = pop(); if coord not in shots: return coord`:
pops (from the front of the given list) discarding already-shot entries; on
success returns the fresh coordinate and what is left of the queue. -/
def popFresh : List Coord → Finset Coord → Option (Coord × List Coord)
  | [], _ => none
  | c :: rest, shots => if c ∈ shots then popFresh rest shots else some (c, rest)

/-- The comprehension `[(r, c) ... if (r, c) not in self.shots]`. -/
def untargetedList (n : ℕ) (shots : Finset Coord) : List Coord :=
  (allCoords n).filter fun p => p ∉ shots

/-- The bounds test `0 <= nr < self.grid_size and 0 <= nc < self.grid_size`
on a possibly-negative neighbour coordinate. -/
def inBounds (n : ℕ) (p : ℤ × ℤ) : Prop :=
  0 ≤ p.1 ∧ p.1 < n ∧ 0 ≤ p.2 ∧ p.2 < n

instance (n : ℕ) (p : ℤ × ℤ) : Decidable (inBounds n p) := by
  unfold inBounds; infer_instance

/-! ## RandomShooter (easy AI) -/

structure RandomShooter where
  grid_size : ℕ
  shots : Finset Coord
deriving DecidableEq

/-- `RandomShooter.__init__`. -/
def RandomShooter.init (grid_size : ℕ) : RandomShooter :=
  { grid_size := grid_size, shots := ∅ }

/-- `RandomShooter.choose_target` with pseudo-random draw `k`. -/
def RandomShooter.choose_target (st : RandomShooter) (k : ℕ) :
    Option (Coord × RandomShooter) :=
  match randomChoice (untargetedList st.grid_size st.shots) k with
  | some coord => some (coord, { st with shots := insert coord st.shots })
  | none => none

/-! ## SeekAndDestroy (medium AI) -/

structure SeekAndDestroy where
  grid_size : ℕ
  targets : List Coord
  shots : Finset Coord
deriving DecidableEq

/-- `SeekAndDestroy.__init__`. -/
def SeekAndDestroy.init (grid_size : ℕ) : SeekAndDestroy :=
  { grid_size := grid_size, targets := [], shots := ∅ }

/-- `SeekAndDestroy.choose_target`: `self.targets.pop()` pops from the END
of the Python list, so the loop is `popFresh` on the reversed queue. -/
def SeekAndDestroy.choose_target (st : SeekAndDestroy) (k : ℕ) :
    Option (Coord × SeekAndDestroy) :=
  match popFresh st.targets.reverse st.shots with
  | some (c, rest) =>
    some (c, { st with targets := rest.reverse, shots := insert c st.shots })
  | none =>
    match randomChoice (untargetedList st.grid_size st.shots) k with
    | some coord => some (coord, { st with targets := [], shots := insert coord st.shots })
    | none => none

/-- The neighbour list `[(r-1, c), (r+1, c), (r, c-1), (r, c+1)]`, over ℤ
because `r - 1` may be negative. -/
def crossNeighbors (coord : Coord) : List (ℤ × ℤ) :=
  [((coord.1 : ℤ) - 1, (coord.2 : ℤ)), ((coord.1 : ℤ) + 1, (coord.2 : ℤ)),
   ((coord.1 : ℤ), (coord.2 : ℤ) - 1), ((coord.1 : ℤ), (coord.2 : ℤ) + 1)]

/-- `valid = [...]` in `SeekAndDestroy.process_result`: the in-bounds
axis-aligned neighbours of `coord`, back in ℕ coordinates. -/
def validNeighbors (n : ℕ) (coord : Coord) : List Coord :=
  ((crossNeighbors coord).filter fun p => inBounds n p).map fun p =>
    (p.1.toNat, p.2.toNat)

/-- `SeekAndDestroy.process_result` with shuffle draws `ks`. -/
def SeekAndDestroy.process_result (st : SeekAndDestroy) (coord : Coord)
    (hit : Bool) (ks : List ℕ) : SeekAndDestroy :=
  if hit then
    { st with targets := st.targets ++ shuffleWith ks (validNeighbors st.grid_size coord) }
  else st

/-! ## StrategicGenius (hard AI) -/

structure StrategicGenius where
  grid_size : ℕ
  hunt_mode : Bool
  shots : Finset Coord
  targets : List Coord
deriving DecidableEq

/-- `StrategicGenius.__init__`. -/
def StrategicGenius.init (grid_size : ℕ) : StrategicGenius :=
  { grid_size := grid_size, hunt_mode := true, shots := ∅, targets := [] }

/-- The hunt-mode candidate pool: checkerboard cells not yet shot, falling
back to all untargeted cells when that pool is empty. -/
def StrategicGenius.huntChoices (n : ℕ) (shots : Finset Coord) : List Coord :=
  let choices := (allCoords n).filter fun p => (p.1 + p.2) % 2 = 0 ∧ p ∉ shots
  if choices.isEmpty then untargetedList n shots else choices

/-- `StrategicGenius.choose_target`.  The recursive call after the queue
drains happens with `hunt_mode = True`, so it is inlined as a hunt-mode
pick; the drained queue leaves `targets = []`. -/
def StrategicGenius.choose_target (st : StrategicGenius) (k : ℕ) :
    Option (Coord × StrategicGenius) :=
  if st.hunt_mode then
    match randomChoice (StrategicGenius.huntChoices st.grid_size st.shots) k with
    | some coord => some (coord, { st with shots := insert coord st.shots })
    | none => none
  else
    match popFresh st.targets st.shots with
    | some (c, rest) =>
      some (c, { st with targets := rest, shots := insert c st.shots })
    | none =>
      match randomChoice (StrategicGenius.huntChoices st.grid_size st.shots) k with
      | some coord =>
        some (coord, { st with hunt_mode := true, targets := [], shots := insert coord st.shots })
      | none => none

/-- The neighbour list `[(r, c+1), (r, c-1), (r+1, c), (r-1, c)]` of
`StrategicGenius.process_result`, over ℤ. -/
def sgNeighbors (coord : Coord) : List (ℤ × ℤ) :=
  [((coord.1 : ℤ), (coord.2 : ℤ) + 1), ((coord.1 : ℤ), (coord.2 : ℤ) - 1),
   ((coord.1 : ℤ) + 1, (coord.2 : ℤ)), ((coord.1 : ℤ) - 1, (coord.2 : ℤ))]

/-- The cells `StrategicGenius.process_result` appends on a hit: in-bounds
neighbours in order right, left, down, up, skipping already-shot cells. -/
def sgFreshNeighbors (n : ℕ) (shots : Finset Coord) (coord : Coord) : List Coord :=
  ((sgNeighbors coord).filter fun p =>
      inBounds n p ∧ (p.1.toNat, p.2.toNat) ∉ shots).map fun p =>
    (p.1.toNat, p.2.toNat)

/-- `StrategicGenius.process_result`. -/
def StrategicGenius.process_result (st : StrategicGenius) (coord : Coord)
    (hit : Bool) : StrategicGenius :=
  if hit then
    { st with hunt_mode := false,
              targets := st.targets ++ sgFreshNeighbors st.grid_size st.shots coord }
  else st

/-! ## Ship, Grid, Player, attack resolution -/

structure Ship where
  size : ℕ
  positions : List Coord
  hits : Finset Coord
deriving DecidableEq

/-- `Ship.__init__(size, positions)`. -/
def Ship.init (size : ℕ) (positions : List Coord) : Ship :=
  { size := size, positions := positions, hits := ∅ }

/-- `Ship.check_hit`: returns the reported boolean and the updated ship. -/
def Ship.check_hit (s : Ship) (target : Coord) : Bool × Ship :=
  if target ∈ s.positions then (true, { s with hits := insert target s.hits })
  else (false, s)

/-- `Ship.is_sunk`: `len(self.hits) == self.size`. -/
def Ship.is_sunk (s : Ship) : Bool :=
  s.hits.card == s.size

/-- `any(s.check_hit(tgt) for s in ships)`: Python's `any` short-circuits,
so ships after the first reported hit are not consulted. -/
def checkHitFleet : List Ship → Coord → Bool × List Ship
  | [], _ => (false, [])
  | s :: rest, tgt =>
    let res := Ship.check_hit s tgt
    if res.1 then (true, res.2 :: rest)
    else
      let tail := checkHitFleet rest tgt
      (tail.1, res.2 :: tail.2)

structure Grid where
  grid_size : ℕ
  cells : Coord → Char

/-- `Grid.__init__`: every cell starts as `' '`. -/
def Grid.init (grid_size : ℕ) : Grid :=
  { grid_size := grid_size, cells := fun _ => ' ' }

/-- `Grid.update`: mark the cell `'X'` on a hit, `'O'` on a miss. -/
def Grid.update (g : Grid) (target : Coord) (hit : Bool) : Grid :=
  { g with cells := fun p => if p = target then (if hit then 'X' else 'O') else g.cells p }

structure Player where
  grid : Grid
  ships : List Ship

/-- `Player.all_sunk`: `all(s.is_sunk() for s in self.ships)`. -/
def Player.all_sunk (p : Player) : Bool :=
  p.ships.all fun s => s.is_sunk

/-- `Player._calc_positions` (its only use of `self` is `self.grid.grid_size`).
`orient` is `'h'` or `'v'` as in the source. -/
def calc_positions (grid_size : ℕ) (start : Coord) (size : ℕ) (orient : Char) :
    Option (List Coord) :=
  if orient = 'h' then
    if grid_size < start.2 + size then none
    else some ((List.range size).map fun i => (start.1, start.2 + i))
  else
    if grid_size < start.1 + size then none
    else some ((List.range size).map fun i => (start.1 + i, start.2))

/-- Outcome of one player-turn attack in `Game.play`. -/
inductive TurnOutcome : Type
  | alreadyTargeted
  | fired (hit : Bool)
deriving DecidableEq

/-- The attack-resolution fragment of `Game.play` (lines 537-545): if the
cell was already attacked, report and change nothing (`continue`);
otherwise run `check_hit` across the opposing fleet and update the view of
the opposing board. -/
def attackStep (opp : Player) (tgt : Coord) : TurnOutcome × Player :=
  if opp.grid.cells tgt ≠ ' ' then (TurnOutcome.alreadyTargeted, opp)
  else
    let res := checkHitFleet opp.ships tgt
    (TurnOutcome.fired res.1, { grid := opp.grid.update tgt res.1, ships := res.2 })

/-! ## Traces of strategy-method calls -/

/-- The board is exhausted: every in-bounds coordinate has been shot. -/
def boardFull (n : ℕ) (shots : Finset Coord) : Prop :=
  ∀ p : Coord, p.1 < n → p.2 < n → p ∈ shots

/-- Queue well-formedness for `SeekAndDestroy`: every queued candidate is in
bounds (the constructor starts with an empty queue and `process_result`
only enqueues bounds-filtered neighbours). -/
def SeekAndDestroy.WF (st : SeekAndDestroy) : Prop :=
  ∀ c ∈ st.targets, c.1 < st.grid_size ∧ c.2 < st.grid_size

/-- Queue well-formedness for `StrategicGenius`, as for `SeekAndDestroy`. -/
def StrategicGenius.WF (st : StrategicGenius) : Prop :=
  ∀ c ∈ st.targets, c.1 < st.grid_size ∧ c.2 < st.grid_size

/-- An event in the life of a strategy instance: a `choose_target` call with
its pseudo-random draw, or a `process_result` call (with shuffle draws,
used only by `SeekAndDestroy`). -/
inductive Ev : Type
  | choose (k : ℕ)
  | proc (c : Coord) (hit : Bool) (ks : List ℕ)

/-- Run a `RandomShooter` through a sequence of method calls, collecting the
coordinates returned by `choose_target`; a failing call aborts the run
(Python would raise).  `RandomShooter.process_result` is inherited from the
base class and is a no-op. -/
def rsRunEv (st : RandomShooter) : List Ev → List Coord
  | [] => []
  | Ev.choose k :: evs =>
    match st.choose_target k with
    | some (c, st') => c :: rsRunEv st' evs
    | none => []
  | Ev.proc _ _ _ :: evs => rsRunEv st evs

/-- Run a `SeekAndDestroy` instance through a sequence of method calls. -/
def sdRunEv (st : SeekAndDestroy) : List Ev → List Coord
  | [] => []
  | Ev.choose k :: evs =>
    match st.choose_target k with
    | some (c, st') => c :: sdRunEv st' evs
    | none => []
  | Ev.proc c hit ks :: evs => sdRunEv (st.process_result c hit ks) evs

/-- Run a `StrategicGenius` instance through a sequence of method calls. -/
def sgRunEv (st : StrategicGenius) : List Ev → List Coord
  | [] => []
  | Ev.choose k :: evs =>
    match st.choose_target k with
    | some (c, st') => c :: sgRunEv st' evs
    | none => []
  | Ev.proc c hit _ :: evs => sgRunEv (st.process_result c hit) evs

/-- Repeated `choose_target` calls on a `RandomShooter`, one per draw. -/
def rsRun (st : RandomShooter) : List ℕ → List Coord
  | [] => []
  | k :: ks =>
    match st.choose_target k with
    | some (c, st') => c :: rsRun st' ks
    | none => []

/-! ## Basic lemmas about the board and the random primitives -/

theorem mem_allCoords {n : ℕ} {p : Coord} : p ∈ allCoords n ↔ p.1 < n ∧ p.2 < n := by
  cases p with
  | mk r c => simp [allCoords, List.mem_flatMap, List.mem_map, List.mem_range]

theorem allCoords_nodup (n : ℕ) : (allCoords n).Nodup := by
  refine List.nodup_flatMap.mpr ⟨?_, ?_⟩
  · intro r _
    refine (List.nodup_range n).map ?_
    intro a b h
    simpa using congrArg Prod.snd h
  · refine (List.nodup_range n).imp ?_
    intro r₁ r₂ hne p hp₁ hp₂
    simp only [List.mem_map] at hp₁ hp₂
    obtain ⟨c₁, _, rfl⟩ := hp₁
    obtain ⟨c₂, _, h⟩ := hp₂
    have h1 : r₂ = r₁ := by simpa using congrArg Prod.fst h
    exact hne h1.symm

theorem allCoords_length (n : ℕ) : (allCoords n).length = n * n := by
  simp only [allCoords, List.length_flatMap, List.map_map]
  have h : (List.length ∘ fun r : ℕ => (List.range n).map fun c => (r, c)) =
      fun _ => n := by
    funext r; simp
  rw [h]
  simp [List.map_const', List.sum_replicate, smul_eq_mul]

theorem randomChoice_eq_none_iff {α : Type} {l : List α} {k : ℕ} :
    randomChoice l k = none ↔ l = [] := by
  cases l with
  | nil => simp [randomChoice]
  | cons a l =>
    simp only [randomChoice, List.getElem?_eq_none_iff]
    have h2 : k % (a :: l).length < (a :: l).length := Nat.mod_lt _ (by simp)
    constructor
    · intro h; omega
    · intro h; cases h

theorem randomChoice_mem {α : Type} {l : List α} {k : ℕ} {a : α}
    (h : randomChoice l k = some a) : a ∈ l := by
  unfold randomChoice at h
  exact List.getElem?_mem h

theorem randomChoice_total {α : Type} {l : List α} (hl : l ≠ []) (k : ℕ) :
    ∃ a, randomChoice l k = some a ∧ a ∈ l := by
  cases h : randomChoice l k with
  | none => exact absurd (randomChoice_eq_none_iff.mp h) hl
  | some a => exact ⟨a, rfl, randomChoice_mem h⟩

theorem mem_untargetedList {n : ℕ} {shots : Finset Coord} {p : Coord} :
    p ∈ untargetedList n shots ↔ (p.1 < n ∧ p.2 < n) ∧ p ∉ shots := by
  simp [untargetedList, List.mem_filter, mem_allCoords]

theorem untargetedList_eq_nil_iff {n : ℕ} {shots : Finset Coord} :
    untargetedList n shots = [] ↔ boardFull n shots := by
  rw [List.eq_nil_iff_forall_not_mem]
  constructor
  · intro h p h1 h2
    by_contra hp
    exact h p (mem_untargetedList.mpr ⟨⟨h1, h2⟩, hp⟩)
  · intro h p hp
    obtain ⟨⟨h1, h2⟩, hp'⟩ := mem_untargetedList.mp hp
    exact hp' (h p h1 h2)

theorem popFresh_some {shots : Finset Coord} :
    ∀ {l : List Coord} {c : Coord} {rest : List Coord},
      popFresh l shots = some (c, rest) → c ∈ l ∧ c ∉ shots := by
  intro l
  induction l with
  | nil => intro c rest h; simp [popFresh] at h
  | cons a l ih =>
    intro c rest h
    by_cases ha : a ∈ shots
    · simp only [popFresh, if_pos ha] at h
      exact ⟨List.mem_cons_of_mem a (ih h).1, (ih h).2⟩
    · simp only [popFresh, if_neg ha, Option.some.injEq, Prod.mk.injEq] at h
      exact ⟨h.1 ▸ List.mem_cons_self a l, h.1 ▸ ha⟩

theorem popFresh_eq_none_iff {shots : Finset Coord} :
    ∀ {l : List Coord}, popFresh l shots = none ↔ ∀ c ∈ l, c ∈ shots := by
  intro l
  induction l with
  | nil => simp [popFresh]
  | cons a l ih =>
    by_cases ha : a ∈ shots
    · simp [popFresh, if_pos ha, ih, ha]
    · simp [popFresh, if_neg ha, ha]

theorem extractIdx_perm {α : Type} :
    ∀ {l : List α} {i : ℕ} {a : α} {rest : List α},
      extractIdx l i = some (a, rest) → l.Perm (a :: rest) := by
  intro l
  induction l with
  | nil => intro i a rest h; simp [extractIdx] at h
  | cons b l ih =>
    intro i a rest h
    cases i with
    | zero =>
      simp only [extractIdx, Option.some.injEq, Prod.mk.injEq] at h
      rw [h.1, h.2]
    | succ n =>
      rw [extractIdx] at h
      cases hex : extractIdx l n with
      | none => rw [hex] at h; simp at h
      | some p =>
        rw [hex] at h
        cases p with
        | mk a' rest' =>
          simp only [Option.map_some', Option.some.injEq, Prod.mk.injEq] at h
          obtain ⟨rfl, rfl⟩ := h
          exact ((ih hex).cons b).trans (List.Perm.swap a' b rest')

theorem shuffleWith_perm : ∀ (ks : List ℕ) (l : List Coord), (shuffleWith ks l).Perm l := by
  intro ks
  induction ks with
  | nil => intro l; exact List.Perm.refl l
  | cons k ks ih =>
    intro l
    unfold shuffleWith
    cases h : extractIdx l (k % l.length) with
    | none => exact List.Perm.refl l
    | some p =>
      cases p with
      | mk a rest => exact ((ih rest).cons a).trans (extractIdx_perm h).symm

/-! ## Step characterisations of the three `choose_target` methods -/

theorem popFresh_rest_subset {shots : Finset Coord} :
    ∀ {l : List Coord} {c : Coord} {rest : List Coord},
      popFresh l shots = some (c, rest) → ∀ x ∈ rest, x ∈ l := by
  intro l
  induction l with
  | nil => intro c rest h; simp [popFresh] at h
  | cons a l ih =>
    intro c rest h x hx
    by_cases ha : a ∈ shots
    · simp only [popFresh, if_pos ha] at h
      exact List.mem_cons_of_mem a (ih h x hx)
    · simp only [popFresh, if_neg ha, Option.some.injEq, Prod.mk.injEq] at h
      exact h.2 ▸ List.mem_cons_of_mem a hx

theorem rs_choose_some {st : RandomShooter} {k : ℕ} {c : Coord} {st' : RandomShooter}
    (h : st.choose_target k = some (c, st')) :
    c.1 < st.grid_size ∧ c.2 < st.grid_size ∧ c ∉ st.shots ∧
      st' = { st with shots := insert c st.shots } := by
  unfold RandomShooter.choose_target at h
  cases hr : randomChoice (untargetedList st.grid_size st.shots) k with
  | none => rw [hr] at h; cases h
  | some a =>
    rw [hr] at h
    simp only [Option.some.injEq, Prod.mk.injEq] at h
    obtain ⟨rfl, rfl⟩ := h
    obtain ⟨⟨h1, h2⟩, h3⟩ := mem_untargetedList.mp (randomChoice_mem hr)
    exact ⟨h1, h2, h3, rfl⟩

theorem rs_choose_none_iff {st : RandomShooter} {k : ℕ} :
    st.choose_target k = none ↔ boardFull st.grid_size st.shots := by
  unfold RandomShooter.choose_target
  cases hr : randomChoice (untargetedList st.grid_size st.shots) k with
  | none =>
    simp only [true_iff]
    exact untargetedList_eq_nil_iff.mp (randomChoice_eq_none_iff.mp hr)
  | some a =>
    simp only [reduceCtorEq, false_iff]
    intro hfull
    have : untargetedList st.grid_size st.shots = [] := untargetedList_eq_nil_iff.mpr hfull
    rw [this] at hr
    simp [randomChoice] at hr

theorem sd_choose_some {st : SeekAndDestroy} {k : ℕ} {c : Coord} {st' : SeekAndDestroy}
    (h : st.choose_target k = some (c, st')) :
    c ∉ st.shots ∧ st'.shots = insert c st.shots ∧ st'.grid_size = st.grid_size ∧
      (c ∈ st.targets ∨ (c.1 < st.grid_size ∧ c.2 < st.grid_size)) ∧
      (∀ x ∈ st'.targets, x ∈ st.targets) := by
  unfold SeekAndDestroy.choose_target at h
  cases hp : popFresh st.targets.reverse st.shots with
  | some p =>
    rw [hp] at h
    cases p with
    | mk c₀ rest =>
      simp only [Option.some.injEq, Prod.mk.injEq] at h
      obtain ⟨rfl, rfl⟩ := h
      obtain ⟨hmem, hfresh⟩ := popFresh_some hp
      refine ⟨hfresh, rfl, rfl, Or.inl (List.mem_reverse.mp hmem), ?_⟩
      intro x hx
      exact List.mem_reverse.mp (popFresh_rest_subset hp x (List.mem_reverse.mp hx))
  | none =>
    rw [hp] at h
    cases hr : randomChoice (untargetedList st.grid_size st.shots) k with
    | none => rw [hr] at h; cases h
    | some a =>
      rw [hr] at h
      simp only [Option.some.injEq, Prod.mk.injEq] at h
      obtain ⟨rfl, rfl⟩ := h
      obtain ⟨⟨h1, h2⟩, h3⟩ := mem_untargetedList.mp (randomChoice_mem hr)
      exact ⟨h3, rfl, rfl, Or.inr ⟨h1, h2⟩, by simp⟩

theorem sd_choose_none_of_full {st : SeekAndDestroy} {k : ℕ} (hwf : st.WF)
    (hfull : boardFull st.grid_size st.shots) : st.choose_target k = none := by
  unfold SeekAndDestroy.choose_target
  have hp : popFresh st.targets.reverse st.shots = none := by
    refine popFresh_eq_none_iff.mpr ?_
    intro c hc
    obtain ⟨h1, h2⟩ := hwf c (List.mem_reverse.mp hc)
    exact hfull c h1 h2
  rw [hp]
  have : untargetedList st.grid_size st.shots = [] := untargetedList_eq_nil_iff.mpr hfull
  rw [this]
  simp [randomChoice]

theorem sd_choose_total {st : SeekAndDestroy} (k : ℕ)
    (h : ¬ boardFull st.grid_size st.shots) :
    ∃ c st', st.choose_target k = some (c, st') := by
  unfold SeekAndDestroy.choose_target
  cases hp : popFresh st.targets.reverse st.shots with
  | some p => exact ⟨p.1, _, rfl⟩
  | none =>
    have hne : untargetedList st.grid_size st.shots ≠ [] := fun hnil =>
      h (untargetedList_eq_nil_iff.mp hnil)
    obtain ⟨a, ha, _⟩ := randomChoice_total hne k
    rw [ha]
    exact ⟨a, _, rfl⟩

theorem mem_huntChoices {n : ℕ} {shots : Finset Coord} {p : Coord}
    (h : p ∈ StrategicGenius.huntChoices n shots) :
    (p.1 < n ∧ p.2 < n) ∧ p ∉ shots := by
  unfold StrategicGenius.huntChoices at h
  by_cases he : ((allCoords n).filter fun p => (p.1 + p.2) % 2 = 0 ∧ p ∉ shots).isEmpty
  · rw [if_pos he] at h
    exact mem_untargetedList.mp h
  · rw [if_neg he] at h
    obtain ⟨hmem, hprop⟩ := List.mem_filter.mp h
    simp only [decide_eq_true_eq] at hprop
    exact ⟨mem_allCoords.mp hmem, hprop.2⟩

theorem huntChoices_eq_nil_iff {n : ℕ} {shots : Finset Coord} :
    StrategicGenius.huntChoices n shots = [] ↔ boardFull n shots := by
  unfold StrategicGenius.huntChoices
  by_cases he : ((allCoords n).filter fun p => (p.1 + p.2) % 2 = 0 ∧ p ∉ shots).isEmpty
  · rw [if_pos he]
    exact untargetedList_eq_nil_iff
  · rw [if_neg he]
    constructor
    · intro h
      rw [h] at he
      simp at he
    · intro hfull
      exfalso
      apply he
      rw [List.isEmpty_iff, List.filter_eq_nil_iff]
      intro p hp
      obtain ⟨h1, h2⟩ := mem_allCoords.mp hp
      simp only [decide_eq_true_eq, not_and]
      intro _
      simp [hfull p h1 h2]

theorem sg_choose_some {st : StrategicGenius} {k : ℕ} {c : Coord} {st' : StrategicGenius}
    (h : st.choose_target k = some (c, st')) :
    c ∉ st.shots ∧ st'.shots = insert c st.shots ∧ st'.grid_size = st.grid_size ∧
      (c ∈ st.targets ∨ (c.1 < st.grid_size ∧ c.2 < st.grid_size)) ∧
      (∀ x ∈ st'.targets, x ∈ st.targets) := by
  unfold StrategicGenius.choose_target at h
  by_cases hm : st.hunt_mode
  · rw [if_pos hm] at h
    cases hr : randomChoice (StrategicGenius.huntChoices st.grid_size st.shots) k with
    | none => rw [hr] at h; cases h
    | some a =>
      rw [hr] at h
      simp only [Option.some.injEq, Prod.mk.injEq] at h
      obtain ⟨rfl, rfl⟩ := h
      obtain ⟨⟨h1, h2⟩, h3⟩ := mem_huntChoices (randomChoice_mem hr)
      exact ⟨h3, rfl, rfl, Or.inr ⟨h1, h2⟩, by simp⟩
  · rw [if_neg hm] at h
    cases hp : popFresh st.targets st.shots with
    | some p =>
      rw [hp] at h
      cases p with
      | mk c₀ rest =>
        simp only [Option.some.injEq, Prod.mk.injEq] at h
        obtain ⟨rfl, rfl⟩ := h
        obtain ⟨hmem, hfresh⟩ := popFresh_some hp
        exact ⟨hfresh, rfl, rfl, Or.inl hmem, fun x hx => popFresh_rest_subset hp x hx⟩
    | none =>
      rw [hp] at h
      cases hr : randomChoice (StrategicGenius.huntChoices st.grid_size st.shots) k with
      | none => rw [hr] at h; cases h
      | some a =>
        rw [hr] at h
        simp only [Option.some.injEq, Prod.mk.injEq] at h
        obtain ⟨rfl, rfl⟩ := h
        obtain ⟨⟨h1, h2⟩, h3⟩ := mem_huntChoices (randomChoice_mem hr)
        exact ⟨h3, rfl, rfl, Or.inr ⟨h1, h2⟩, by simp⟩

theorem sg_choose_none_of_full {st : StrategicGenius} {k : ℕ} (hwf : st.WF)
    (hfull : boardFull st.grid_size st.shots) : st.choose_target k = none := by
  unfold StrategicGenius.choose_target
  have hr : randomChoice (StrategicGenius.huntChoices st.grid_size st.shots) k = none := by
    rw [huntChoices_eq_nil_iff.mpr hfull]
    simp [randomChoice]
  have hp : popFresh st.targets st.shots = none := by
    refine popFresh_eq_none_iff.mpr ?_
    intro c hc
    obtain ⟨h1, h2⟩ := hwf c hc
    exact hfull c h1 h2
  by_cases hm : st.hunt_mode
  · rw [if_pos hm, hr]
  · rw [if_neg hm, hp, hr]

theorem sg_choose_total {st : StrategicGenius} (k : ℕ)
    (h : ¬ boardFull st.grid_size st.shots) :
    ∃ c st', st.choose_target k = some (c, st') := by
  unfold StrategicGenius.choose_target
  have hne : StrategicGenius.huntChoices st.grid_size st.shots ≠ [] := fun hnil =>
    h (huntChoices_eq_nil_iff.mp hnil)
  obtain ⟨a, ha, _⟩ := randomChoice_total hne k
  by_cases hm : st.hunt_mode
  · rw [if_pos hm, ha]
    exact ⟨a, _, rfl⟩
  · rw [if_neg hm]
    cases hp : popFresh st.targets st.shots with
    | some p => exact ⟨p.1, _, rfl⟩
    | none =>
      rw [ha]
      exact ⟨a, _, rfl⟩

/-! ## No-repeat traces and coverage machinery -/

theorem rs_choose_total {st : RandomShooter} (k : ℕ)
    (h : ¬ boardFull st.grid_size st.shots) :
    ∃ c st', st.choose_target k = some (c, st') := by
  unfold RandomShooter.choose_target
  have hne : untargetedList st.grid_size st.shots ≠ [] := fun hnil =>
    h (untargetedList_eq_nil_iff.mp hnil)
  obtain ⟨a, ha, _⟩ := randomChoice_total hne k
  rw [ha]
  exact ⟨a, _, rfl⟩

theorem sd_process_shots (st : SeekAndDestroy) (c : Coord) (hit : Bool) (ks : List ℕ) :
    (st.process_result c hit ks).shots = st.shots := by
  unfold SeekAndDestroy.process_result
  cases hit <;> simp

theorem sg_process_shots (st : StrategicGenius) (c : Coord) (hit : Bool) :
    (st.process_result c hit).shots = st.shots := by
  unfold StrategicGenius.process_result
  cases hit <;> simp

theorem rsRunEv_fresh : ∀ (evs : List Ev) (st : RandomShooter),
    (∀ c ∈ rsRunEv st evs, c ∉ st.shots) ∧ (rsRunEv st evs).Nodup := by
  intro evs
  induction evs with
  | nil => intro st; simp [rsRunEv]
  | cons e evs ih =>
    intro st
    cases e with
    | proc c hit ks => exact ih st
    | choose k =>
      simp only [rsRunEv]
      cases hc : st.choose_target k with
      | none => simp
      | some p =>
        cases p with
        | mk c st' =>
          obtain ⟨_, _, h3, h4⟩ := rs_choose_some hc
          obtain ⟨ihm, ihn⟩ := ih st'
          have hsh : st'.shots = insert c st.shots := by rw [h4]
          constructor
          · intro x hx
            rcases List.mem_cons.mp hx with rfl | hx'
            · exact h3
            · have hx'' := ihm x hx'
              rw [hsh, Finset.mem_insert] at hx''
              push_neg at hx''
              exact hx''.2
          · refine List.nodup_cons.mpr ⟨?_, ihn⟩
            intro hmem
            have := ihm c hmem
            rw [hsh] at this
            simp at this

theorem sdRunEv_fresh : ∀ (evs : List Ev) (st : SeekAndDestroy),
    (∀ c ∈ sdRunEv st evs, c ∉ st.shots) ∧ (sdRunEv st evs).Nodup := by
  intro evs
  induction evs with
  | nil => intro st; simp [sdRunEv]
  | cons e evs ih =>
    intro st
    cases e with
    | proc c hit ks =>
      simp only [sdRunEv]
      obtain ⟨ihm, ihn⟩ := ih (st.process_result c hit ks)
      exact ⟨fun x hx => sd_process_shots st c hit ks ▸ ihm x hx, ihn⟩
    | choose k =>
      simp only [sdRunEv]
      cases hc : st.choose_target k with
      | none => simp
      | some p =>
        cases p with
        | mk c st' =>
          obtain ⟨h1, h2, _, _, _⟩ := sd_choose_some hc
          obtain ⟨ihm, ihn⟩ := ih st'
          constructor
          · intro x hx
            rcases List.mem_cons.mp hx with rfl | hx'
            · exact h1
            · have hx'' := ihm x hx'
              rw [h2, Finset.mem_insert] at hx''
              push_neg at hx''
              exact hx''.2
          · refine List.nodup_cons.mpr ⟨?_, ihn⟩
            intro hmem
            have := ihm c hmem
            rw [h2] at this
            simp at this

theorem sgRunEv_fresh : ∀ (evs : List Ev) (st : StrategicGenius),
    (∀ c ∈ sgRunEv st evs, c ∉ st.shots) ∧ (sgRunEv st evs).Nodup := by
  intro evs
  induction evs with
  | nil => intro st; simp [sgRunEv]
  | cons e evs ih =>
    intro st
    cases e with
    | proc c hit ks =>
      simp only [sgRunEv]
      obtain ⟨ihm, ihn⟩ := ih (st.process_result c hit)
      exact ⟨fun x hx => sg_process_shots st c hit ▸ ihm x hx, ihn⟩
    | choose k =>
      simp only [sgRunEv]
      cases hc : st.choose_target k with
      | none => simp
      | some p =>
        cases p with
        | mk c st' =>
          obtain ⟨h1, h2, _, _, _⟩ := sg_choose_some hc
          obtain ⟨ihm, ihn⟩ := ih st'
          constructor
          · intro x hx
            rcases List.mem_cons.mp hx with rfl | hx'
            · exact h1
            · have hx'' := ihm x hx'
              rw [h2, Finset.mem_insert] at hx''
              push_neg at hx''
              exact hx''.2
          · refine List.nodup_cons.mpr ⟨?_, ihn⟩
            intro hmem
            have := ihm c hmem
            rw [h2] at this
            simp at this

theorem boardFull_card_ge {n : ℕ} {shots : Finset Coord} (h : boardFull n shots) :
    n * n ≤ shots.card := by
  have hsub : (allCoords n).toFinset ⊆ shots := by
    intro p hp
    rw [List.mem_toFinset] at hp
    obtain ⟨h1, h2⟩ := mem_allCoords.mp hp
    exact h p h1 h2
  calc n * n = (allCoords n).toFinset.card := by
        rw [List.toFinset_card_of_nodup (allCoords_nodup n), allCoords_length]
    _ ≤ shots.card := Finset.card_le_card hsub

theorem rsRun_spec : ∀ (ks : List ℕ) (st : RandomShooter),
    st.shots.card + ks.length ≤ st.grid_size * st.grid_size →
    (rsRun st ks).length = ks.length ∧ (rsRun st ks).Nodup ∧
      (∀ c ∈ rsRun st ks,
        (c.1 < st.grid_size ∧ c.2 < st.grid_size) ∧ c ∉ st.shots) := by
  intro ks
  induction ks with
  | nil => intro st _; simp [rsRun]
  | cons k ks ih =>
    intro st hcard
    have hnf : ¬ boardFull st.grid_size st.shots := by
      intro hfull
      have := boardFull_card_ge hfull
      simp only [List.length_cons] at hcard
      omega
    obtain ⟨c, st', hc⟩ := rs_choose_total k hnf
    obtain ⟨h1, h2, h3, h4⟩ := rs_choose_some hc
    have hsh : st'.shots = insert c st.shots := by rw [h4]
    have hgr : st'.grid_size = st.grid_size := by rw [h4]
    have hcard' : st'.shots.card + ks.length ≤ st'.grid_size * st'.grid_size := by
      rw [hsh, hgr, Finset.card_insert_of_not_mem h3]
      simp only [List.length_cons] at hcard
      omega
    obtain ⟨ihl, ihn, ihm⟩ := ih st' hcard'
    simp only [rsRun, hc]
    refine ⟨by simp [ihl], ?_, ?_⟩
    · refine List.nodup_cons.mpr ⟨?_, ihn⟩
      intro hmem
      have := (ihm c hmem).2
      rw [hsh] at this
      simp at this
    · intro x hx
      rcases List.mem_cons.mp hx with rfl | hx'
      · exact ⟨⟨h1, h2⟩, h3⟩
      · obtain ⟨hb, hs⟩ := ihm x hx'
        rw [hgr] at hb
        rw [hsh, Finset.mem_insert] at hs
        push_neg at hs
        exact ⟨hb, hs.2⟩

/-! ## Further helpers for the phased strategy -/

theorem sg_choose_drained {st : StrategicGenius} {k : ℕ} (hm : st.hunt_mode = false)
    (ht : st.targets = []) {a : Coord}
    (ha : randomChoice (StrategicGenius.huntChoices st.grid_size st.shots) k = some a) :
    st.choose_target k =
      some (a, { st with hunt_mode := true, targets := [], shots := insert a st.shots }) := by
  unfold StrategicGenius.choose_target
  rw [if_neg (by simp [hm]), ht]
  simp [popFresh, ha]

theorem sg_choose_hunt_mem {st : StrategicGenius} {k : ℕ} (hm : st.hunt_mode = true)
    {c : Coord} {st' : StrategicGenius} (h : st.choose_target k = some (c, st')) :
    c ∈ StrategicGenius.huntChoices st.grid_size st.shots := by
  unfold StrategicGenius.choose_target at h
  rw [if_pos (by simp [hm])] at h
  cases hr : randomChoice (StrategicGenius.huntChoices st.grid_size st.shots) k with
  | none => rw [hr] at h; cases h
  | some a =>
    rw [hr] at h
    simp only [Option.some.injEq, Prod.mk.injEq] at h
    exact h.1 ▸ randomChoice_mem hr

theorem sg_choose_hunt_eq {st : StrategicGenius} {k : ℕ} (hm : st.hunt_mode = true)
    {a : Coord}
    (ha : randomChoice (StrategicGenius.huntChoices st.grid_size st.shots) k = some a) :
    st.choose_target k = some (a, { st with shots := insert a st.shots }) := by
  unfold StrategicGenius.choose_target
  rw [if_pos (by simp [hm]), ha]

theorem huntChoices_evens {n : ℕ} {shots : Finset Coord}
    (h : ∃ p : Coord, p.1 < n ∧ p.2 < n ∧ (p.1 + p.2) % 2 = 0 ∧ p ∉ shots) :
    StrategicGenius.huntChoices n shots =
      (allCoords n).filter fun p => (p.1 + p.2) % 2 = 0 ∧ p ∉ shots := by
  unfold StrategicGenius.huntChoices
  obtain ⟨p, h1, h2, h3, h4⟩ := h
  have hmem : p ∈ (allCoords n).filter fun p => (p.1 + p.2) % 2 = 0 ∧ p ∉ shots := by
    rw [List.mem_filter]
    exact ⟨mem_allCoords.mpr ⟨h1, h2⟩, by simp [h3, h4]⟩
  rw [if_neg ?_]
  intro he
  rw [List.isEmpty_iff] at he
  rw [he] at hmem
  cases hmem

theorem huntChoices_fallback {n : ℕ} {shots : Finset Coord}
    (h : ¬ ∃ p : Coord, p.1 < n ∧ p.2 < n ∧ (p.1 + p.2) % 2 = 0 ∧ p ∉ shots) :
    StrategicGenius.huntChoices n shots = untargetedList n shots := by
  unfold StrategicGenius.huntChoices
  rw [if_pos ?_]
  rw [List.isEmpty_iff, List.filter_eq_nil_iff]
  intro p hp
  obtain ⟨h1, h2⟩ := mem_allCoords.mp hp
  simp only [decide_eq_true_eq, not_and]
  intro hpar hnot
  exact h ⟨p, h1, h2, hpar, hnot⟩

/-! ## The claims -/

/-- C1: for every strategy instance (RandomShooter, SeekAndDestroy,
StrategicGenius) on a `grid_size × grid_size` board, if every coordinate has
already been targeted then `choose_target` fails (the `ExhaustedBoardError`
of the design: `random.choice` on an empty pool), and if at least one
untargeted coordinate remains it does not fail.  The queue-carrying
strategies are taken with well-formed (in-bounds) queues, the invariant
their constructor and `process_result` maintain. -/
theorem claim_C1 :
    (∀ (st : RandomShooter) (k : ℕ),
      (boardFull st.grid_size st.shots → st.choose_target k = none) ∧
      (¬ boardFull st.grid_size st.shots → st.choose_target k ≠ none)) ∧
    (∀ (st : SeekAndDestroy) (k : ℕ), st.WF →
      (boardFull st.grid_size st.shots → st.choose_target k = none) ∧
      (¬ boardFull st.grid_size st.shots → st.choose_target k ≠ none)) ∧
    (∀ (st : StrategicGenius) (k : ℕ), st.WF →
      (boardFull st.grid_size st.shots → st.choose_target k = none) ∧
      (¬ boardFull st.grid_size st.shots → st.choose_target k ≠ none)) := by
  refine ⟨?_, ?_, ?_⟩
  · intro st k
    constructor
    · intro hfull
      exact rs_choose_none_iff.mpr hfull
    · intro hnf
      obtain ⟨c, st', hc⟩ := rs_choose_total k hnf
      simp [hc]
  · intro st k hwf
    constructor
    · intro hfull
      exact sd_choose_none_of_full hwf hfull
    · intro hnf
      obtain ⟨c, st', hc⟩ := sd_choose_total k hnf
      simp [hc]
  · intro st k hwf
    constructor
    · intro hfull
      exact sg_choose_none_of_full hwf hfull
    · intro hnf
      obtain ⟨c, st', hc⟩ := sg_choose_total k hnf
      simp [hc]

/-- Witness for C1: on a 1×1 board, a fresh instance of each strategy does
not fail, and an instance whose single cell is already shot fails. -/
theorem claim_C1_witness :
    (RandomShooter.mk 1 {(0, 0)}).choose_target 0 = none ∧
    (RandomShooter.init 1).choose_target 0 ≠ none ∧
    (SeekAndDestroy.mk 1 [] {(0, 0)}).choose_target 0 = none ∧
    (SeekAndDestroy.init 1).choose_target 0 ≠ none ∧
    (StrategicGenius.mk 1 true {(0, 0)} []).choose_target 0 = none ∧
    (StrategicGenius.init 1).choose_target 0 ≠ none := by
  have hfull : boardFull 1 ({(0, 0)} : Finset Coord) := by
    intro p h1 h2
    have : p = (0, 0) := Prod.ext (Nat.lt_one_iff.mp h1) (Nat.lt_one_iff.mp h2)
    simp [this]
  have hnotfull : ¬ boardFull 1 (∅ : Finset Coord) := by
    intro h
    simpa using h (0, 0) Nat.one_pos Nat.one_pos
  have hwfsd : (SeekAndDestroy.mk 1 [] {(0, 0)}).WF := by
    intro c hc
    simp at hc
  have hwfsd' : (SeekAndDestroy.init 1).WF := by
    intro c hc
    simp [SeekAndDestroy.init] at hc
  have hwfsg : (StrategicGenius.mk 1 true {(0, 0)} []).WF := by
    intro c hc
    simp at hc
  have hwfsg' : (StrategicGenius.init 1).WF := by
    intro c hc
    simp [StrategicGenius.init] at hc
  exact ⟨(claim_C1.1 (RandomShooter.mk 1 {(0, 0)}) 0).1 hfull,
    (claim_C1.1 (RandomShooter.init 1) 0).2 hnotfull,
    (claim_C1.2.1 (SeekAndDestroy.mk 1 [] {(0, 0)}) 0 hwfsd).1 hfull,
    (claim_C1.2.1 (SeekAndDestroy.init 1) 0 hwfsd').2 hnotfull,
    (claim_C1.2.2 (StrategicGenius.mk 1 true {(0, 0)} []) 0 hwfsg).1 hfull,
    (claim_C1.2.2 (StrategicGenius.init 1) 0 hwfsg').2 hnotfull⟩

/-- C2: for every strategy instance, a successful `choose_target` returns a
coordinate never previously returned (it is not in the targeted set) and
records it as targeted in the post-state; consequently, along any sequence
of `choose_target` / `process_result` calls, no coordinate is returned
twice by the same instance. -/
theorem claim_C2 :
    (∀ (st : RandomShooter) (k : ℕ) (c : Coord) (st' : RandomShooter),
      st.choose_target k = some (c, st') → c ∉ st.shots ∧ c ∈ st'.shots) ∧
    (∀ (st : SeekAndDestroy) (k : ℕ) (c : Coord) (st' : SeekAndDestroy),
      st.choose_target k = some (c, st') → c ∉ st.shots ∧ c ∈ st'.shots) ∧
    (∀ (st : StrategicGenius) (k : ℕ) (c : Coord) (st' : StrategicGenius),
      st.choose_target k = some (c, st') → c ∉ st.shots ∧ c ∈ st'.shots) ∧
    (∀ (st : RandomShooter) (evs : List Ev), (rsRunEv st evs).Nodup) ∧
    (∀ (st : SeekAndDestroy) (evs : List Ev), (sdRunEv st evs).Nodup) ∧
    (∀ (st : StrategicGenius) (evs : List Ev), (sgRunEv st evs).Nodup) := by
  refine ⟨?_, ?_, ?_, ?_, ?_, ?_⟩
  · intro st k c st' h
    obtain ⟨_, _, h3, h4⟩ := rs_choose_some h
    exact ⟨h3, by rw [h4]; simp⟩
  · intro st k c st' h
    obtain ⟨h1, h2, _, _, _⟩ := sd_choose_some h
    exact ⟨h1, by rw [h2]; simp⟩
  · intro st k c st' h
    obtain ⟨h1, h2, _, _, _⟩ := sg_choose_some h
    exact ⟨h1, by rw [h2]; simp⟩
  · intro st evs
    exact (rsRunEv_fresh evs st).2
  · intro st evs
    exact (sdRunEv_fresh evs st).2
  · intro st evs
    exact (sgRunEv_fresh evs st).2

/-- Witness for C2: a fresh 1×1 RandomShooter returns `(0,0)`, which was not
yet targeted and is targeted afterwards. -/
theorem claim_C2_witness :
    (0, 0) ∉ (RandomShooter.init 1).shots ∧
      (0, 0) ∈ (RandomShooter.mk 1 (insert (0, 0) ∅)).shots :=
  claim_C2.1 (RandomShooter.init 1) 0 (0, 0) (RandomShooter.mk 1 (insert (0, 0) ∅))
    (by decide)

/-- C3: for every grid size `n` and every sequence of `n * n` random draws,
running a fresh RandomShooter through `n * n` `choose_target` calls returns
every coordinate of the `n × n` board exactly once (a permutation of the
board), in particular all in bounds. -/
theorem claim_C3 (n : ℕ) (ks : List ℕ) (hlen : ks.length = n * n) :
    (rsRun (RandomShooter.init n) ks).Perm (allCoords n) := by
  obtain ⟨hl, hn, hm⟩ := rsRun_spec ks (RandomShooter.init n)
    (by simp [RandomShooter.init, hlen])
  refine List.perm_of_nodup_nodup_toFinset_eq hn (allCoords_nodup n) ?_
  have hsub : (rsRun (RandomShooter.init n) ks).toFinset ⊆ (allCoords n).toFinset := by
    intro p hp
    rw [List.mem_toFinset] at hp
    obtain ⟨⟨h1, h2⟩, _⟩ := hm p hp
    simp only [RandomShooter.init] at h1 h2
    exact List.mem_toFinset.mpr (mem_allCoords.mpr ⟨h1, h2⟩)
  refine Finset.eq_of_subset_of_card_le hsub ?_
  rw [List.toFinset_card_of_nodup hn, List.toFinset_card_of_nodup (allCoords_nodup n),
    hl, hlen, allCoords_length]

/-- Witness for C3: a fresh 2×2 RandomShooter run on four draws covers the
whole board. -/
theorem claim_C3_witness :
    (rsRun (RandomShooter.init 2) [0, 1, 0, 0]).Perm (allCoords 2) :=
  claim_C3 2 [0, 1, 0, 0] (by decide)

/-- C4: `SeekAndDestroy.process_result` on a hit appends exactly the
in-bounds axis-aligned neighbours of the coordinate, in some shuffled
order, leaving previously queued entries in place; on a miss the state is
unchanged.  With `grid_size = 3` and a hit at `(1,1)` on a fresh instance
the queued set becomes exactly `{(0,1), (2,1), (1,0), (1,2)}`. -/
theorem claim_C4 :
    (∀ (st : SeekAndDestroy) (coord : Coord) (ks : List ℕ),
      (st.process_result coord true ks).targets =
          st.targets ++ shuffleWith ks (validNeighbors st.grid_size coord) ∧
      (shuffleWith ks (validNeighbors st.grid_size coord)).Perm
          (validNeighbors st.grid_size coord) ∧
      st.process_result coord false ks = st) ∧
    (∀ ks : List ℕ,
      ((SeekAndDestroy.init 3).process_result (1, 1) true ks).targets.toFinset =
        {(0, 1), (2, 1), (1, 0), (1, 2)}) := by
  constructor
  · intro st coord ks
    refine ⟨?_, shuffleWith_perm ks _, ?_⟩
    · simp [SeekAndDestroy.process_result]
    · simp [SeekAndDestroy.process_result]
  · intro ks
    have h : ((SeekAndDestroy.init 3).process_result (1, 1) true ks).targets =
        shuffleWith ks (validNeighbors 3 (1, 1)) := by
      simp [SeekAndDestroy.process_result, SeekAndDestroy.init]
    rw [h, List.toFinset_eq_of_perm _ _ (shuffleWith_perm ks _)]
    decide

/-- C5: `StrategicGenius.process_result` on a hit switches to targeting mode
and appends the in-bounds, not-yet-shot axis-neighbours in the order right,
left, down, up.  On a fresh 4×4 instance after a hit at `(1,1)`, the queue
is exactly `[(1,2), (1,0), (2,1), (0,1)]`; the next four `choose_target`
calls return exactly those coordinates in FIFO order, and the fifth call
re-enters hunt mode and returns a checkerboard hunting pick within that
same call. -/
theorem claim_C5 :
    (∀ (st : StrategicGenius) (coord : Coord),
      (st.process_result coord true).hunt_mode = false ∧
      (st.process_result coord true).targets =
        st.targets ++ sgFreshNeighbors st.grid_size st.shots coord ∧
      st.process_result coord false = st) ∧
    ((StrategicGenius.init 4).process_result (1, 1) true =
      StrategicGenius.mk 4 false ∅ [(1, 2), (1, 0), (2, 1), (0, 1)]) ∧
    (∀ k1 k2 k3 k4 k5 : ℕ,
      ∃ st2 st3 st4 st5 : StrategicGenius, ∃ c : Coord, ∃ st6 : StrategicGenius,
      (StrategicGenius.mk 4 false ∅ [(1, 2), (1, 0), (2, 1), (0, 1)]).choose_target k1 =
          some ((1, 2), st2) ∧
      st2.choose_target k2 = some ((1, 0), st3) ∧
      st3.choose_target k3 = some ((2, 1), st4) ∧
      st4.choose_target k4 = some ((0, 1), st5) ∧
      st5.choose_target k5 = some (c, st6) ∧
      st6.hunt_mode = true ∧ (c.1 + c.2) % 2 = 0 ∧ c ∉ st5.shots) := by
  refine ⟨?_, by decide, ?_⟩
  · intro st coord
    refine ⟨?_, ?_, ?_⟩ <;> simp [StrategicGenius.process_result]
  · intro k1 k2 k3 k4 k5
    refine ⟨StrategicGenius.mk 4 false {(1, 2)} [(1, 0), (2, 1), (0, 1)],
      StrategicGenius.mk 4 false (insert (1, 0) {(1, 2)}) [(2, 1), (0, 1)],
      StrategicGenius.mk 4 false (insert (2, 1) (insert (1, 0) {(1, 2)})) [(0, 1)],
      StrategicGenius.mk 4 false
        (insert (0, 1) (insert (2, 1) (insert (1, 0) {(1, 2)}))) [],
      ?_⟩
    have hne : StrategicGenius.huntChoices 4
        (insert (0, 1) (insert (2, 1) (insert (1, 0) ({(1, 2)} : Finset Coord)))) ≠ [] := by
      decide
    obtain ⟨a, ha, hmem⟩ := randomChoice_total hne k5
    refine ⟨a, _, rfl, rfl, rfl, rfl, sg_choose_drained rfl rfl ha, rfl, ?_, ?_⟩
    · have hlst : StrategicGenius.huntChoices 4
          (insert (0, 1) (insert (2, 1) (insert (1, 0) ({(1, 2)} : Finset Coord)))) =
          [(0, 0), (0, 2), (1, 1), (1, 3), (2, 0), (2, 2), (3, 1), (3, 3)] := by
        decide
      rw [hlst] at hmem
      simp only [List.mem_cons, List.not_mem_nil, or_false] at hmem
      rcases hmem with rfl | rfl | rfl | rfl | rfl | rfl | rfl | rfl <;> decide
    · have hlst : StrategicGenius.huntChoices 4
          (insert (0, 1) (insert (2, 1) (insert (1, 0) ({(1, 2)} : Finset Coord)))) =
          [(0, 0), (0, 2), (1, 1), (1, 3), (2, 0), (2, 2), (3, 1), (3, 3)] := by
        decide
      rw [hlst] at hmem
      simp only [List.mem_cons, List.not_mem_nil, or_false] at hmem
      rcases hmem with rfl | rfl | rfl | rfl | rfl | rfl | rfl | rfl <;> decide

/-- C6: a StrategicGenius instance in hunt mode returns only checkerboard
(even `row+column`) coordinates as long as an untargeted even-parity cell
remains; once none remains, `choose_target` selects from the full
untargeted pool (and so still succeeds while any untargeted cell is left)
instead of failing. -/
theorem claim_C6 (st : StrategicGenius) (k : ℕ) (hm : st.hunt_mode = true) :
    ((∃ p : Coord, p.1 < st.grid_size ∧ p.2 < st.grid_size ∧
        (p.1 + p.2) % 2 = 0 ∧ p ∉ st.shots) →
      ∀ c st', st.choose_target k = some (c, st') → (c.1 + c.2) % 2 = 0) ∧
    ((¬ ∃ p : Coord, p.1 < st.grid_size ∧ p.2 < st.grid_size ∧
        (p.1 + p.2) % 2 = 0 ∧ p ∉ st.shots) →
      (∃ p : Coord, p.1 < st.grid_size ∧ p.2 < st.grid_size ∧ p ∉ st.shots) →
      ∃ c st', st.choose_target k = some (c, st') ∧
        c.1 < st.grid_size ∧ c.2 < st.grid_size ∧ c ∉ st.shots) := by
  constructor
  · intro hev c st' h
    have hmem := sg_choose_hunt_mem hm h
    rw [huntChoices_evens hev] at hmem
    obtain ⟨_, hprop⟩ := List.mem_filter.mp hmem
    simp only [decide_eq_true_eq] at hprop
    exact hprop.1
  · intro hev ⟨p, h1, h2, h3⟩
    have hfb := huntChoices_fallback hev
    have hne : StrategicGenius.huntChoices st.grid_size st.shots ≠ [] := by
      rw [hfb]
      intro hnil
      exact List.eq_nil_iff_forall_not_mem.mp hnil p
        (mem_untargetedList.mpr ⟨⟨h1, h2⟩, h3⟩)
    obtain ⟨a, ha, hmem⟩ := randomChoice_total hne k
    rw [hfb] at hmem
    obtain ⟨⟨hb1, hb2⟩, hb3⟩ := mem_untargetedList.mp hmem
    exact ⟨a, _, sg_choose_hunt_eq hm ha, hb1, hb2, hb3⟩

/-- Witness for C6: a fresh 2×2 StrategicGenius is in hunt mode, `(0,0)` is
an untargeted even-parity cell, and the instance's first pick, `(0,0)`, has
even parity. -/
theorem claim_C6_witness :
    (StrategicGenius.init 2).hunt_mode = true ∧
      ((0 : ℕ) + (0 : ℕ)) % 2 = 0 :=
  ⟨rfl, (claim_C6 (StrategicGenius.init 2) 0 rfl).1
    ⟨(0, 0), by decide, by decide, by decide, by decide⟩
    (0, 0) (StrategicGenius.mk 2 true {(0, 0)} []) (by decide)⟩

/-- C7: `Ship.check_hit` reports true and records the hit exactly when the
target is one of the ship's positions, and otherwise reports false leaving
the ship unchanged; `Ship.is_sunk` holds iff the hit count equals the
ship's size; a fleet is `all_sunk` iff every ship in it is sunk; and the
size-2 ship at `[(0,0), (0,1)]` behaves as the spec's scenario describes. -/
theorem claim_C7 :
    (∀ (s : Ship) (target : Coord),
      (target ∈ s.positions →
        s.check_hit target = (true, { s with hits := insert target s.hits })) ∧
      (target ∉ s.positions → s.check_hit target = (false, s))) ∧
    (∀ s : Ship, s.is_sunk = true ↔ s.hits.card = s.size) ∧
    (∀ p : Player, p.all_sunk = true ↔ ∀ s ∈ p.ships, s.is_sunk = true) ∧
    ((Ship.init 2 [(0, 0), (0, 1)]).check_hit (0, 0) =
        (true, Ship.mk 2 [(0, 0), (0, 1)] {(0, 0)}) ∧
      (Ship.mk 2 [(0, 0), (0, 1)] {(0, 0)}).is_sunk = false ∧
      (Ship.mk 2 [(0, 0), (0, 1)] {(0, 0)}).check_hit (0, 1) =
        (true, Ship.mk 2 [(0, 0), (0, 1)] (insert (0, 1) {(0, 0)})) ∧
      (Ship.mk 2 [(0, 0), (0, 1)] (insert (0, 1) {(0, 0)})).is_sunk = true ∧
      (Ship.mk 2 [(0, 0), (0, 1)] (insert (0, 1) {(0, 0)})).check_hit (1, 1) =
        (false, Ship.mk 2 [(0, 0), (0, 1)] (insert (0, 1) {(0, 0)}))) := by
  refine ⟨?_, ?_, ?_, by decide⟩
  · intro s target
    constructor
    · intro h
      simp [Ship.check_hit, h]
    · intro h
      simp [Ship.check_hit, h]
  · intro s
    simp [Ship.is_sunk]
  · intro p
    simp [Player.all_sunk, List.all_eq_true]

/-- Witness for C7: the scenario ship at its first hit, with the membership
hypotheses discharged concretely. -/
theorem claim_C7_witness :
    (Ship.init 2 [(0, 0), (0, 1)]).check_hit (0, 0) =
        (true, Ship.mk 2 [(0, 0), (0, 1)] (insert (0, 0) ∅)) ∧
      (Ship.init 2 [(0, 0), (0, 1)]).check_hit (1, 1) =
        (false, Ship.init 2 [(0, 0), (0, 1)]) :=
  ⟨(claim_C7.1 (Ship.init 2 [(0, 0), (0, 1)]) (0, 0)).1 (by decide),
   (claim_C7.1 (Ship.init 2 [(0, 0), (0, 1)]) (1, 1)).2 (by decide)⟩

/-- Counterexample for C8: the claim asserts rejection whenever any computed
cell falls outside the board in either axis, for every start coordinate.
But `_calc_positions` only checks the axis along which the ship extends:
from the out-of-bounds start `(5, 0)` on a 4×4 board, a horizontal ship of
length 2 is accepted with cells `(5,0), (5,1)` whose row 5 is outside
`[0, 4)`. -/
theorem claim_C8_counterexample :
    calc_positions 4 (5, 0) 2 'h' = some [(5, 0), (5, 1)] ∧ ¬ ((5 : ℕ) < 4) := by
  decide

/-- C8 (amended: the start coordinate is within the board, as every caller
guarantees): horizontal placement computes `[(r,c), ..., (r,c+length-1)]`,
vertical placement computes `[(r,c), ..., (r+length-1,c)]`, and for an
in-bounds start the result is `none` exactly when some computed cell falls
outside `[0, grid_size)`; in particular `(3,3)`, length 2, horizontal on a
4×4 board is rejected and `(0,0)`, length 3, vertical yields
`[(0,0), (1,0), (2,0)]`. -/
theorem claim_C8 :
    (∀ (n r c size : ℕ) (l : List Coord),
      (calc_positions n (r, c) size 'h' = some l →
        l = (List.range size).map fun i => (r, c + i)) ∧
      (calc_positions n (r, c) size 'v' = some l →
        l = (List.range size).map fun i => (r + i, c))) ∧
    (∀ n r c size : ℕ, r < n → c < n →
      ((calc_positions n (r, c) size 'h' = none ↔
          ∃ i < size, ¬ (r < n ∧ c + i < n)) ∧
       (calc_positions n (r, c) size 'v' = none ↔
          ∃ i < size, ¬ (r + i < n ∧ c < n)))) ∧
    (calc_positions 4 (3, 3) 2 'h' = none ∧
      calc_positions 4 (0, 0) 3 'v' = some [(0, 0), (1, 0), (2, 0)]) := by
  refine ⟨?_, ?_, by decide⟩
  · intro n r c size l
    constructor
    · intro h
      unfold calc_positions at h
      rw [if_pos rfl] at h
      by_cases hb : n < c + size
      · rw [if_pos hb] at h; cases h
      · rw [if_neg hb] at h
        exact (Option.some.injEq _ _ ▸ h).symm
    · intro h
      unfold calc_positions at h
      rw [if_neg (by decide)] at h
      by_cases hb : n < r + size
      · rw [if_pos hb] at h; cases h
      · rw [if_neg hb] at h
        exact (Option.some.injEq _ _ ▸ h).symm
  · intro n r c size hr hc
    constructor
    · unfold calc_positions
      rw [if_pos rfl]
      by_cases hb : n < c + size
      · rw [if_pos hb]
        simp only [true_iff]
        exact ⟨size - 1, by omega, by omega⟩
      · rw [if_neg hb]
        simp only [reduceCtorEq, false_iff, not_exists]
        intro i hi
        exact hi.2 ⟨by omega, by omega⟩
    · unfold calc_positions
      rw [if_neg (by decide)]
      by_cases hb : n < r + size
      · rw [if_pos hb]
        simp only [true_iff]
        exact ⟨size - 1, by omega, by omega⟩
      · rw [if_neg hb]
        simp only [reduceCtorEq, false_iff, not_exists]
        intro i hi
        exact hi.2 ⟨by omega, by omega⟩

/-- Witness for C8: the spec's own concrete case, start `(3,3)` (in bounds
on a 4×4 board), length 2, horizontal: rejected because the cell `(3, 4)`
falls outside the board. -/
theorem claim_C8_witness :
    (3 : ℕ) < 4 ∧
      (calc_positions 4 (3, 3) 2 'h' = none ↔ ∃ i < 2, ¬ ((3 : ℕ) < 4 ∧ 3 + i < 4)) :=
  ⟨by decide, (claim_C8.2.1 4 3 3 2 (by decide) (by decide)).1⟩

/-- C9: the attack-resolution step updates the attacker's view of the
opposing board to hit/miss only when the target cell was not already
attacked; re-attacking an already-attacked cell is a non-fatal no-op
leaving the opposing fleet and the cell-state mapping unchanged. -/
theorem claim_C9 (opp : Player) (tgt : Coord) :
    (opp.grid.cells tgt ≠ ' ' →
      attackStep opp tgt = (TurnOutcome.alreadyTargeted, opp)) ∧
    (opp.grid.cells tgt = ' ' →
      attackStep opp tgt =
        (TurnOutcome.fired (checkHitFleet opp.ships tgt).1,
          Player.mk (opp.grid.update tgt (checkHitFleet opp.ships tgt).1)
            (checkHitFleet opp.ships tgt).2) ∧
      (attackStep opp tgt).2.grid.cells tgt =
        (if (checkHitFleet opp.ships tgt).1 then 'X' else 'O')) := by
  constructor
  · intro h
    unfold attackStep
    rw [if_pos h]
  · intro h
    have hstep : attackStep opp tgt =
        (TurnOutcome.fired (checkHitFleet opp.ships tgt).1,
          Player.mk (opp.grid.update tgt (checkHitFleet opp.ships tgt).1)
            (checkHitFleet opp.ships tgt).2) := by
      unfold attackStep
      rw [if_neg (by simp [h])]
    refine ⟨hstep, ?_⟩
    rw [hstep]
    simp [Grid.update]

/-- Witness for C9: a player whose cell `(0,0)` is already marked `'X'` sees
a no-op on re-attack, and a fresh player's cell is updated. -/
theorem claim_C9_witness :
    (attackStep (Player.mk (Grid.mk 1 fun _ => 'X') []) (0, 0) =
      (TurnOutcome.alreadyTargeted, Player.mk (Grid.mk 1 fun _ => 'X') [])) ∧
    ((attackStep (Player.mk (Grid.init 1) []) (0, 0)).2.grid.cells (0, 0) =
      (if (checkHitFleet ([] : List Ship) (0, 0)).1 then 'X' else 'O')) :=
  ⟨(claim_C9 (Player.mk (Grid.mk 1 fun _ => 'X') []) (0, 0)).1 (by decide),
   ((claim_C9 (Player.mk (Grid.init 1) []) (0, 0)).2 rfl).2⟩

/-- C10: `Ship.check_hit` is idempotent: a second call with the same target
returns the same boolean and leaves the ship exactly as after the first
call; re-hitting an already-hit cell still reports true and does not
double-count toward `is_sunk`. -/
theorem claim_C10 (s : Ship) (target : Coord) :
    ((s.check_hit target).2.check_hit target).1 = (s.check_hit target).1 ∧
      ((s.check_hit target).2.check_hit target).2 = (s.check_hit target).2 := by
  by_cases h : target ∈ s.positions
  · simp [Ship.check_hit, h, Finset.insert_idem]
  · simp [Ship.check_hit, h]

end Battleship
